import Mathlib

/-!
Verification of the core numerical engines of the
ImageProcessingAndBeamforming repository.

Part A embeds `src/core/imagean/imagean.py` (the `ImageViewer` class:
frequency masks, brightness/contrast adjustment, frequency-domain mixing).
Part B embeds `src/core/beamforman/beamforman.py` (the `PhasedArray` and
`BeamformingSimulator` classes).

Conventions of the shallow embedding:
* Python floats are modelled as real numbers `ℝ` (rationals `ℚ` where the
  source only does exact arithmetic before an `int()` conversion).
* Python dicts keyed by strings are modelled as insertion-ordered
  association lists `List (String × α)`.
* NumPy arrays are modelled as functions `ℕ → ℕ → ℝ` (or `ℂ`) together with
  explicit height/width; all statements are restricted to in-range indices.
* Exceptions are modelled with `Except`; a Python `return None` is a
  distinguished error value.
-/

open Complex Finset

namespace IPB

/-! ### Part A: imagean.py data model -/

/-- Python `int()` applied to an exact numeric value: truncation toward zero. -/
def pyInt (q : ℚ) : ℤ := if q < 0 then ⌈q⌉ else ⌊q⌋

/-- The `region_params` / `rect_coords` dict of `mix_images` and
`_create_frequency_mask`: normalized rectangle plus polarity type.
The four numeric fields are optional because the source reads them with
`rect_coords.get(key, default)`. -/
structure Region where
  x : Option ℚ
  y : Option ℚ
  width : Option ℚ
  height : Option ℚ
  type : String

/-- The pixel rectangle `(x_start, x_end, y_start, y_end)` computed by
`ImageViewer._create_frequency_mask` before the mask is allocated:
normalized coordinates are converted with `int(...)`, clamped to the valid
bounds, and degenerate rectangles are expanded to a minimum size. -/
def maskRect (hgt wdt : ℕ) (rc : Region) : ℤ × ℤ × ℤ × ℤ :=
  let normX := rc.x.getD (1/4)
  let normY := rc.y.getD (1/4)
  let normW := rc.width.getD (1/2)
  let normH := rc.height.getD (1/2)
  let xStart0 := pyInt (normX * wdt)
  let yStart0 := pyInt (normY * hgt)
  let rectW := pyInt (normW * wdt)
  let rectH := pyInt (normH * hgt)
  let xEnd0 := xStart0 + rectW
  let yEnd0 := yStart0 + rectH
  let xStart := max 0 (min xStart0 (wdt : ℤ))
  let yStart := max 0 (min yStart0 (hgt : ℤ))
  let xEnd := max 0 (min xEnd0 (wdt : ℤ))
  let yEnd := max 0 (min yEnd0 (hgt : ℤ))
  let xEnd1 := if xEnd ≤ xStart then xStart + 1 else xEnd
  let yEnd1 := if yEnd ≤ yStart then yStart + 1 else yEnd
  (xStart, xEnd1, yStart, yEnd1)

/-- Membership of pixel `(i, j)` (row `i`, column `j`) in the slice
`mask[y_start:y_end, x_start:x_end]` assigned by `_create_frequency_mask`. -/
def inMaskRect (r : ℤ × ℤ × ℤ × ℤ) (i j : ℕ) : Prop :=
  r.2.2.1 ≤ (i : ℤ) ∧ (i : ℤ) < r.2.2.2 ∧ r.1 ≤ (j : ℤ) ∧ (j : ℤ) < r.2.1

instance (r : ℤ × ℤ × ℤ × ℤ) (i j : ℕ) : Decidable (inMaskRect r i j) := by
  unfold inMaskRect; infer_instance

/-- `ImageViewer._create_frequency_mask(shape, mode, rect_coords)`:
binary mask, `inner` keeps the rectangle, any other mode keeps its
complement. -/
def createFrequencyMask (hgt wdt : ℕ) (mode : String) (rc : Region) :
    ℕ → ℕ → ℝ :=
  fun i j =>
    if mode = "inner" then (if inMaskRect (maskRect hgt wdt rc) i j then 1 else 0)
    else (if inMaskRect (maskRect hgt wdt rc) i j then 0 else 1)

/-! ### Part A: images, the 2-D DFT and center shift (numpy.fft) -/

/-- A loaded grayscale image: the pixel grid of `np.array(img.convert('L'),
dtype=np.float64)`, with its dimensions.  Pixel values are read through a
total function; only indices below the stored dimensions are meaningful. -/
structure ImgN where
  h : ℕ
  w : ℕ
  px : ℕ → ℕ → ℝ

/-- The `uint8` output image returned by `mix_images` (after
`astype(np.uint8)`). -/
structure OutImg where
  h : ℕ
  w : ℕ
  px : ℕ → ℕ → ℕ

/-- One-dimensional discrete Fourier transform of length `n`, as computed by
`np.fft.fft` along one axis: `F[k] = Σ_j v[j]·exp(-2πi·j·k/n)`. -/
noncomputable def dftN (n : ℕ) (v : ℕ → ℂ) (k : ℕ) : ℂ :=
  ∑ j ∈ Finset.range n, v j * Complex.exp (-(2 * Real.pi * I * j * k / n))

/-- One-dimensional inverse DFT of length `n`, as computed by `np.fft.ifft`:
`v[j] = (Σ_k F[k]·exp(2πi·j·k/n)) / n`. -/
noncomputable def idftN (n : ℕ) (v : ℕ → ℂ) (j : ℕ) : ℂ :=
  (∑ k ∈ Finset.range n, v k * Complex.exp (2 * Real.pi * I * j * k / n)) / n

/-- `np.fft.fft2`: the 1-D DFT applied along both axes of an `h × w` grid. -/
noncomputable def fft2 (hgt wdt : ℕ) (a : ℕ → ℕ → ℂ) : ℕ → ℕ → ℂ :=
  fun k1 k2 => dftN hgt (fun j1 => dftN wdt (a j1) k2) k1

/-- `np.fft.ifft2`: the 1-D inverse DFT applied along both axes. -/
noncomputable def ifft2 (hgt wdt : ℕ) (b : ℕ → ℕ → ℂ) : ℕ → ℕ → ℂ :=
  fun j1 j2 => idftN hgt (fun k1 => idftN wdt (b k1) j2) j1

/-- `np.fft.fftshift` on both axes: a circular roll by `n // 2` along each
axis, so `result[i][j] = a[(i + h - h//2) % h][(j + w - w//2) % w]`. -/
def fftshift2 {α : Type} (hgt wdt : ℕ) (a : ℕ → ℕ → α) : ℕ → ℕ → α :=
  fun i j => a ((i + (hgt - hgt / 2)) % hgt) ((j + (wdt - wdt / 2)) % wdt)

/-- `np.fft.ifftshift` on both axes: the inverse roll, by `-(n // 2)`. -/
def ifftshift2 {α : Type} (hgt wdt : ℕ) (a : ℕ → ℕ → α) : ℕ → ℕ → α :=
  fun i j => a ((i + hgt / 2) % hgt) ((j + wdt / 2) % wdt)

/-- `np.clip(x, 0, 255)` applied to one value. -/
noncomputable def npClip255 (x : ℝ) : ℝ := min (max x 0) 255

/-! ### Part A: the ImageViewer session state and its operations -/

/-- Association-list lookup for a Python dict keyed by strings
(`d[k]` / `d.get(k)`). -/
def dlookup {α : Type} : List (String × α) → String → Option α
  | [], _ => none
  | (k, v) :: rest, key => if k = key then some v else dlookup rest key

/-- Python dict assignment `d[k] = v`: replace the binding if the key is
present, append it otherwise. -/
def dinsert {α : Type} : List (String × α) → String → α → List (String × α)
  | [], key, v => [(key, v)]
  | (k, w) :: rest, key, v =>
      if k = key then (key, v) :: rest else (k, w) :: dinsert rest key v

/-- The mutable state of an `ImageViewer` that the embedded operations
touch: current display copies, immutable originals, and the
brightness/contrast tracking dict.  (The FFT cache and the output/component
viewport dicts are not read by the embedded operations.) -/
structure ViewerState where
  images : List (String × ImgN)
  original_images : List (String × ImgN)
  last_adjustments : List (String × (ℝ × ℝ))

/-- Failure modes of `mix_images`: `stopIteration` is the uncaught
`StopIteration` raised by `next(iter(weights_a.keys()))` on an empty dict;
`noValidImages` is the explicit `return None`; `dimMismatch` is the numpy
broadcast error raised when an accumulated image does not match the
reference dimensions. -/
inductive MixErr where
  | stopIteration
  | noValidImages
  | dimMismatch
deriving DecidableEq

/-- The two per-pixel accumulators `mixed_comp_1` / `mixed_comp_2`. -/
structure MixAcc where
  m1 : ℕ → ℕ → ℝ
  m2 : ℕ → ℕ → ℝ

/-- One iteration of the `for key in all_keys` loop of `mix_images`:
skip keys that are not loaded, skip keys whose two weights are both zero,
otherwise take a fresh shifted FFT of the original image, extract the
component pair selected by the mode, apply the frequency mask and
accumulate the weighted components. -/
noncomputable def processKey (orig : List (String × ImgN))
    (modes : List (String × String)) (wa wb : List (String × ℝ))
    (hgt wdt : ℕ) (mask : ℕ → ℕ → ℝ) (acc : MixAcc) (key : String) :
    Except MixErr MixAcc :=
  match dlookup orig key with
  | none => .ok acc
  | some img =>
    let mode := (dlookup modes key).getD "magnitude_phase"
    let wak := (dlookup wa key).getD 0
    let wbk := (dlookup wb key).getD 0
    if wak = 0 ∧ wbk = 0 then .ok acc
    else if img.h = hgt ∧ img.w = wdt then
      let F := fftshift2 hgt wdt (fft2 hgt wdt (fun i j => ((img.px i j : ℝ) : ℂ)))
      let comp1 : ℕ → ℕ → ℝ :=
        if mode = "magnitude_phase" then fun i j => Complex.abs (F i j)
        else fun i j => (F i j).re
      let comp2 : ℕ → ℕ → ℝ :=
        if mode = "magnitude_phase" then fun i j => (F i j).arg
        else fun i j => (F i j).im
      .ok ⟨fun i j => acc.m1 i j + comp1 i j * mask i j * wak,
           fun i j => acc.m2 i j + comp2 i j * mask i j * wbk⟩
    else .error .dimMismatch

/-- `ImageViewer.mix_images`, as a function of the `original_images` dict
(which is the only instance state the method reads).  Follows the source:
reference image selection from the first key of `weights_a`, mask creation,
per-key accumulation, reconstruction according to the reference image's
mode, inverse shift and inverse FFT, magnitude, clip and `uint8` cast. -/
noncomputable def mixImagesCore (orig : List (String × ImgN))
    (modes : List (String × String)) (wa wb : List (String × ℝ))
    (rp : Region) : Except MixErr OutImg :=
  match wa with
  | [] => .error .stopIteration
  | (k0, _) :: _ =>
    let refPair? : Option (String × ImgN) :=
      match dlookup orig k0 with
      | some img => some (k0, img)
      | none => (wa.map Prod.fst).findSome?
          (fun k => (dlookup orig k).map (fun img => (k, img)))
    match refPair? with
    | none => .error .noValidImages
    | some (firstKey, refImg) =>
      let hgt := refImg.h
      let wdt := refImg.w
      let mask := createFrequencyMask hgt wdt rp.type rp
      let outputMode := (dlookup modes firstKey).getD "magnitude_phase"
      let allKeys := (wa.map Prod.fst ++ wb.map Prod.fst).dedup
      match allKeys.foldlM (processKey orig modes wa wb hgt wdt mask)
          ⟨fun _ _ => 0, fun _ _ => 0⟩ with
      | .error e => .error e
      | .ok acc =>
        let combined : ℕ → ℕ → ℂ :=
          if outputMode = "magnitude_phase" then
            fun i j => ((acc.m1 i j : ℝ) : ℂ) * Complex.exp (I * (acc.m2 i j : ℝ))
          else
            fun i j => ((acc.m1 i j : ℝ) : ℂ) + I * ((acc.m2 i j : ℝ) : ℂ)
        let back := ifft2 hgt wdt (ifftshift2 hgt wdt combined)
        .ok ⟨hgt, wdt, fun i j => ⌊npClip255 (Complex.abs (back i j))⌋₊⟩

/-- `ImageViewer.mix_images` on a viewer state. -/
noncomputable def mix_images (s : ViewerState) (modes : List (String × String))
    (wa wb : List (String × ℝ)) (rp : Region) : Except MixErr OutImg :=
  mixImagesCore s.original_images modes wa wb rp

/-- Failure modes of `apply_brightness_contrast`: unknown image key,
`KeyError` on the originals dict, and the `ValueError` raised for any
reference mode other than `'original'`. -/
inductive AdjErr where
  | notLoaded
  | keyError
  | invalidReference
deriving DecidableEq

/-- `ImageViewer.apply_brightness_contrast(image_key, brightness, contrast,
reference)`: clamp the inputs, and in `'original'` mode compute
`clip((original*brightness − 127.5)*contrast + 127.5, 0, 255)` and record
the applied values in `last_adjustments`.  Any other reference mode raises
`ValueError` (the `'current'` branch documented in the docstring does not
exist in the code).  Returns the possibly-updated state together with the
result tuple `(adjusted, shape, brightness, contrast)`. -/
noncomputable def apply_brightness_contrast (s : ViewerState) (key : String)
    (brightness contrast : ℝ) (reference : String) :
    ViewerState × Except AdjErr ((ℕ → ℕ → ℝ) × (ℕ × ℕ) × ℝ × ℝ) :=
  match dlookup s.images key with
  | none => (s, .error .notLoaded)
  | some _ =>
    let b := max 0 (min 2 brightness)
    let c := max 0 (min 3 contrast)
    if reference = "original" then
      match dlookup s.original_images key with
      | none => (s, .error .keyError)
      | some img =>
        let adjusted := fun i j => npClip255 ((img.px i j * b - 127.5) * c + 127.5)
        ({ s with last_adjustments := dinsert s.last_adjustments key (b, c) },
          .ok (adjusted, (img.h, img.w), b, c))
    else (s, .error .invalidReference)

/-! ### Part B: beamforman.py data model -/

/-- The `ArrayGeometry` enum. -/
inductive ArrayGeometry where
  | linear
  | curved
  | circular
  | rectangular
deriving DecidableEq

/-- The `PhaseProfile` enum. -/
inductive PhaseProfile where
  | linear
  | quadratic
  | custom
  | random
deriving DecidableEq

/-- The `ArrayElement` dataclass: one antenna element. -/
structure ArrayElement where
  index : ℤ
  position_x : ℝ
  position_y : ℝ
  phase : ℝ
  amplitude : ℝ
  delay : ℝ
  is_active : Bool

/-- The `PhasedArray` dataclass (configuration fields plus the element
list). -/
structure PhasedArrayM where
  name : String
  id : ℤ
  geometry : ArrayGeometry
  num_elements : ℕ
  element_spacing : ℝ
  curvature : ℝ
  frequency : ℝ
  position_x : ℝ
  position_y : ℝ
  rotation : ℝ
  steering_angle : ℝ
  focus_distance : ℝ
  beam_width : ℝ
  phase_profile : PhaseProfile
  phase_slope : ℝ
  apply_delays : Bool
  elements : List ArrayElement

/-- `math.radians`: degrees to radians. -/
noncomputable def radiansR (d : ℝ) : ℝ := d * Real.pi / 180

/-- Python `complex(re, im)`. -/
def npComplexMk (re im : ℝ) : ℂ := ⟨re, im⟩

/-- The loop `while phase > 180: phase -= 360` at the end of
`calculate_phases`. -/
noncomputable def wrapDown (x : ℝ) : ℝ :=
  if h : 180 < x then wrapDown (x - 360) else x
termination_by ⌈(x - 180) / 360⌉₊
decreasing_by
  have ht : (0 : ℝ) < (x - 180) / 360 := by
    apply div_pos <;> linarith
  have h1 : 0 < ⌈(x - 180) / 360⌉₊ := Nat.ceil_pos.mpr ht
  have h2 : ⌈(x - 360 - 180) / 360⌉₊ ≤ ⌈(x - 180) / 360⌉₊ - 1 := by
    apply Nat.ceil_le.mpr
    have h3 : (x - 180) / 360 ≤ (⌈(x - 180) / 360⌉₊ : ℝ) := Nat.le_ceil _
    have h4 : ((⌈(x - 180) / 360⌉₊ - 1 : ℕ) : ℝ) = (⌈(x - 180) / 360⌉₊ : ℝ) - 1 := by
      exact_mod_cast Nat.cast_sub h1
    rw [h4]
    linarith
  omega

/-- The loop `while phase < -180: phase += 360` at the end of
`calculate_phases`. -/
noncomputable def wrapUp (x : ℝ) : ℝ :=
  if h : x < -180 then wrapUp (x + 360) else x
termination_by ⌈(-180 - x) / 360⌉₊
decreasing_by
  have ht : (0 : ℝ) < (-180 - x) / 360 := by
    apply div_pos <;> linarith
  have h1 : 0 < ⌈(-180 - x) / 360⌉₊ := Nat.ceil_pos.mpr ht
  have h2 : ⌈(-180 - (x + 360)) / 360⌉₊ ≤ ⌈(-180 - x) / 360⌉₊ - 1 := by
    apply Nat.ceil_le.mpr
    have h3 : (-180 - x) / 360 ≤ (⌈(-180 - x) / 360⌉₊ : ℝ) := Nat.le_ceil _
    have h4 : ((⌈(-180 - x) / 360⌉₊ - 1 : ℕ) : ℝ) = (⌈(-180 - x) / 360⌉₊ : ℝ) - 1 := by
      exact_mod_cast Nat.cast_sub h1
    rw [h4]
    linarith
  omega

/-- The phase normalization at the end of `calculate_phases`: both wrap
loops in source order. -/
noncomputable def pyWrap (x : ℝ) : ℝ := wrapUp (wrapDown x)

/-- The phase contributed by the configured phase profile for the element
at loop position `i`.  The `random` profile's `np.random.uniform(-180, 180)`
draw is supplied by the oracle `rand`; the `custom` profile matches no
branch and leaves the element's phase unchanged. -/
noncomputable def profilePhase (arr : PhasedArrayM) (rand : ℕ → ℝ) (i : ℕ)
    (e : ArrayElement) : ℝ :=
  match arr.phase_profile with
  | .linear => ((i : ℝ) - ((arr.num_elements : ℝ) - 1) / 2) * arr.phase_slope
  | .quadratic => -360 *
      Real.sqrt ((e.position_x - arr.position_x) ^ 2 +
        (e.position_y - arr.position_y) ^ 2) / arr.focus_distance
  | .random => rand i
  | .custom => e.phase

/-- The steering-angle adjustment of `calculate_phases`: applied only when
the steering angle is nonzero. -/
noncomputable def steeredPhase (arr : PhasedArrayM) (i : ℕ) (p : ℝ) : ℝ :=
  if arr.steering_angle ≠ 0 then
    p + ((i : ℝ) - ((arr.num_elements : ℝ) - 1) / 2) * arr.steering_angle * 2
  else p

/-- `PhasedArray.calculate_phases`: recompute every element's phase from the
profile, add the steering term, and wrap. -/
noncomputable def calculate_phases (arr : PhasedArrayM) (rand : ℕ → ℝ) :
    PhasedArrayM :=
  { arr with
    elements := arr.elements.enum.map (fun p =>
      { p.2 with phase := pyWrap (steeredPhase arr p.1 (profilePhase arr rand p.1 p.2)) }) }

/-- The complex array factor accumulated by `calculate_beam_pattern` at one
angle (in degrees): inactive elements are skipped, each active element
contributes `amplitude * complex(cos(total), sin(total))` with
`total = k·(x·sin θ + y·cos θ) + radians(phase)`. -/
noncomputable def patternAt (arr : PhasedArrayM) (angle : ℝ) : ℂ :=
  let wavelength := 300 / arr.frequency
  let k := 2 * Real.pi / wavelength
  let angleRad := radiansR angle
  arr.elements.foldl (fun acc e =>
    if e.is_active then
      acc + (e.amplitude : ℂ) *
        npComplexMk
          (Real.cos (k * (e.position_x * Real.sin angleRad +
              e.position_y * Real.cos angleRad) + radiansR e.phase))
          (Real.sin (k * (e.position_x * Real.sin angleRad +
              e.position_y * Real.cos angleRad) + radiansR e.phase))
    else acc) 0

/-- `PhasedArray.calculate_beam_pattern(angles)`: the magnitude of the
complex array factor at each angle, divided by the number of active
elements. -/
noncomputable def calculate_beam_pattern (arr : PhasedArrayM)
    (angles : List ℝ) : List ℝ :=
  angles.map (fun a =>
    Complex.abs (patternAt arr a) /
      ((arr.elements.filter (fun e => e.is_active)).length : ℝ))

/-- `PhasedArray.calculate_field_at_point(x, y)`: spherical-wave
superposition over active elements with inverse-distance (`1/d`) decay;
an element whose distance to the point is exactly zero is skipped. -/
noncomputable def calculate_field_at_point (arr : PhasedArrayM) (x y : ℝ) : ℂ :=
  let wavelength := 300 / arr.frequency
  let k := 2 * Real.pi / wavelength
  arr.elements.foldl (fun acc e =>
    if e.is_active then
      if Real.sqrt ((x - e.position_x) ^ 2 + (y - e.position_y) ^ 2) = 0 then acc
      else acc +
        ((e.amplitude / Real.sqrt ((x - e.position_x) ^ 2 + (y - e.position_y) ^ 2) : ℝ) : ℂ) *
        npComplexMk
          (Real.cos (k * Real.sqrt ((x - e.position_x) ^ 2 + (y - e.position_y) ^ 2) +
            radiansR e.phase))
          (Real.sin (k * Real.sqrt ((x - e.position_x) ^ 2 + (y - e.position_y) ^ 2) +
            radiansR e.phase))
    else acc) 0

/-- The `BeamformingSimulator` state touched by the embedded operations:
the array collection and the current-array index.  The index is an
arbitrary Python integer (imports do not validate it). -/
structure SimState where
  arrays : List PhasedArrayM
  current_array_index : ℤ

/-- The `for i, array in enumerate(self.arrays): if array.id == array_id:
self.arrays.pop(i)` search of `remove_array`: remove the first array with
the given id, or report that none matched. -/
def popFirstWithId : List PhasedArrayM → ℤ → Option (List PhasedArrayM)
  | [], _ => none
  | a :: rest, aid =>
      if a.id = aid then some rest
      else (popFirstWithId rest aid).map (a :: ·)

/-- `BeamformingSimulator.remove_array(array_id)`: pop the first matching
array and clamp `current_array_index` only when it falls at or beyond the
new length. -/
def remove_array (s : SimState) (aid : ℤ) : SimState × Bool :=
  match popFirstWithId s.arrays aid with
  | none => (s, false)
  | some arrays' =>
    let idx :=
      if (arrays'.length : ℤ) ≤ s.current_array_index then
        max 0 ((arrays'.length : ℤ) - 1)
      else s.current_array_index
    ({ arrays := arrays', current_array_index := idx }, true)

/-- Python list indexing `l[i]` with negative-index wraparound; `none`
models an `IndexError`. -/
def pyListGet {α : Type} (l : List α) (i : ℤ) : Option α :=
  let j := if i < 0 then i + l.length else i
  if h : 0 ≤ j ∧ j < l.length then some (l.get ⟨j.toNat, by omega⟩) else none

/-- `BeamformingSimulator.get_current_array()`: `None` when no arrays are
loaded, otherwise `self.arrays[self.current_array_index]` (which can raise
`IndexError`, modelled by `.error`). -/
def get_current_array (s : SimState) : Except Unit (Option PhasedArrayM) :=
  if s.arrays.isEmpty then .ok none
  else
    match pyListGet s.arrays s.current_array_index with
    | some a => .ok (some a)
    | none => .error ()

/-- The input to `import_configuration` after the parse attempts that the
source performs: `malformed` models a `json.loads` failure; `parsed`
carries, for each entry of `data['arrays']`, the outcome of
`PhasedArray.from_dict` (which can raise), plus the document's optional
`current_array_index`. -/
inductive ImportInput where
  | malformed
  | parsed (entries : List (Except Unit PhasedArrayM)) (idx : Option ℤ)

/-- The `for array_data in data.get('arrays', [])` loop of
`import_configuration`: arrays deserialized before the first failure,
plus a flag telling whether the loop completed. -/
def takeOks : List (Except Unit PhasedArrayM) → List PhasedArrayM × Bool
  | [] => ([], true)
  | .ok a :: rest => ((takeOks rest).1.cons a, (takeOks rest).2)
  | .error _ :: _ => ([], false)

/-- `BeamformingSimulator.import_configuration(json_str)`: a parse failure
leaves the state untouched; otherwise the array list is cleared and rebuilt
entry by entry inside the `try`, so a failing entry leaves the prefix of
successfully deserialized arrays installed with the prior index, and only a
fully successful run also installs the document's `current_array_index`. -/
def import_configuration (s : SimState) (doc : ImportInput) : SimState × Bool :=
  match doc with
  | .malformed => (s, false)
  | .parsed entries idx? =>
    let p := takeOks entries
    if p.2 then ({ arrays := p.1, current_array_index := idx?.getD 0 }, true)
    else ({ arrays := p.1, current_array_index := s.current_array_index }, false)

/-- The full-spectrum region: `x=0, y=0, width=1, height=1, type='inner'`. -/
def fullRegion : Region := ⟨some 0, some 0, some 1, some 1, "inner"⟩

/-- Closed form of the output that `mix_images` produces for a single
loaded image in `magnitude_phase` mode under the full-spectrum region
(derived by tracing the source; proved in `mixImagesCore_single`). -/
noncomputable def mixSingleResult (hh ww : ℕ) (px : ℕ → ℕ → ℝ)
    (wA wB : ℝ) : OutImg :=
  ⟨hh, ww, fun i j =>
    ⌊npClip255 (Complex.abs (ifft2 hh ww (ifftshift2 hh ww (fun p q =>
      ((Complex.abs (fftshift2 hh ww (fft2 hh ww (fun r c => ((px r c : ℝ) : ℂ))) p q)
          * createFrequencyMask hh ww fullRegion.type fullRegion p q * wA : ℝ) : ℂ) *
      Complex.exp (I * (((fftshift2 hh ww (fft2 hh ww (fun r c => ((px r c : ℝ) : ℂ))) p q).arg
          * createFrequencyMask hh ww fullRegion.type fullRegion p q * wB : ℝ) : ℂ)))) i j))⌋₊⟩

/-- A concrete 1×2 test image: pixel row `[0, 100]`. -/
def pixC1 : ℕ → ℕ → ℕ := fun _ c => if c = 0 then 0 else 100

/-- The test image as a loaded grayscale image. -/
noncomputable def imgC1 : ImgN := ⟨1, 2, fun r c => (pixC1 r c : ℝ)⟩

/-- A viewer session holding only the test image under key `img1`. -/
noncomputable def viewerC1 : ViewerState :=
  ⟨[("img1", imgC1)], [("img1", imgC1)], [("img1", (1, 1))]⟩

/-- Pixel accessor on a mix result (`256` marks an error result; it is not a
possible `uint8` pixel value). -/
def mixPx (e : Except MixErr OutImg) (i j : ℕ) : ℕ :=
  match e with
  | .ok r => r.px i j
  | .error _ => 256

/-- Concrete witness data for C1 and C3: a 1×1 image of value 7. -/
def pixW1 : ℕ → ℕ → ℕ := fun _ _ => 7

/-- The witness image as a loaded grayscale image. -/
noncomputable def imgW1 : ImgN := ⟨1, 1, fun r c => (pixW1 r c : ℝ)⟩

/-- A viewer session holding only the witness image. -/
noncomputable def viewerW1 : ViewerState :=
  ⟨[("img1", imgW1)], [("img1", imgW1)], [("img1", (1, 1))]⟩

/-- The element used in the witness arrays: index 0 at the origin, phase 0,
amplitude 1, active. -/
def elemW7 : ArrayElement := ⟨0, 0, 0, 0, 1, 0, true⟩

/-- A one-element linear array with slope 0 and steering 0. -/
def arrW7 : PhasedArrayM :=
  ⟨"Array 1", 0, .linear, 1, 0.5, 1, 2400, 0, 0, 0, 0, 5, 30, .linear, 0,
    false, [elemW7]⟩

/-- A two-element array, both elements at the origin with amplitude 1,
phase 0, active. -/
def arrC5 : PhasedArrayM :=
  ⟨"Array 1", 0, .linear, 2, 0.5, 1, 300, 0, 0, 0, 0, 5, 30, .linear, 0,
    false, [elemW7, elemW7]⟩

/-- The near-field formula as the claim words it: `amplitude /
sqrt(distance)` decay times `exp(i·(k·distance + phase))` over active
elements.  (Stated from the claim, for comparison with the code.) -/
noncomputable def specFieldSqrtDecay (arr : PhasedArrayM) (x y : ℝ) : ℂ :=
  ((arr.elements.filter (fun e => e.is_active)).map (fun e =>
    ((e.amplitude /
        Real.sqrt (Real.sqrt ((x - e.position_x) ^ 2 + (y - e.position_y) ^ 2)) : ℝ) : ℂ)
      * Complex.exp (I * ((2 * Real.pi / (300 / arr.frequency) *
          Real.sqrt ((x - e.position_x) ^ 2 + (y - e.position_y) ^ 2)
          + radiansR e.phase : ℝ) : ℂ)))).sum

/-- A one-element array at the origin, frequency 300 MHz (wavelength 1,
wavenumber 2π). -/
def arrC6 : PhasedArrayM :=
  ⟨"Array 1", 0, .linear, 1, 0.5, 1, 300, 0, 0, 0, 0, 5, 30, .linear, 0,
    false, [elemW7]⟩

/-- The element of the C7 counterexample: initial phase exactly -180. -/
def elemC7 : ArrayElement := ⟨0, 0, 0, -180, 1, 0, true⟩

/-- A one-element array with the `custom` profile (no branch of
`calculate_phases` touches the phase) and steering angle 0. -/
def arrC7 : PhasedArrayM :=
  ⟨"Array 1", 0, .linear, 1, 0.5, 1, 2400, 0, 0, 0, 0, 5, 30, .custom, 0,
    false, [elemC7]⟩

/-- Arrays used in the simulator counterexamples, with ids 0, 1 and 2. -/
def arrA0 : PhasedArrayM :=
  ⟨"A0", 0, .linear, 1, 0.5, 1, 2400, 0, 0, 0, 0, 5, 30, .linear, 0, false, [elemW7]⟩

/-- Second counterexample array, id 1. -/
def arrA1 : PhasedArrayM :=
  ⟨"A1", 1, .linear, 1, 0.5, 1, 2400, 0, 0, 0, 0, 5, 30, .linear, 0, false, [elemW7]⟩

/-- Third counterexample array, id 2. -/
def arrA2 : PhasedArrayM :=
  ⟨"A2", 2, .linear, 1, 0.5, 1, 2400, 0, 0, 0, 0, 5, 30, .linear, 0, false, [elemW7]⟩

/-- A simulator holding one array (id 0) with index 0. -/
def simC9 : SimState := ⟨[arrA0], 0⟩

/-- An import document whose first entry deserializes (id 1) and whose
second entry fails. -/
def docC9 : ImportInput := .parsed [Except.ok arrA1, Except.error ()] none

/-- Well-formedness of a simulator state: nonnegative current index, in
bounds whenever the collection is nonempty. -/
def simWF (s : SimState) : Prop :=
  0 ≤ s.current_array_index ∧
    (s.arrays = [] ∨ s.current_array_index < s.arrays.length)

/-- A simulator state reached through the public API: importing a document
with three valid arrays and `current_array_index = -4` (the import performs
no validation of the index). -/
def simC10 : SimState :=
  (import_configuration ⟨[], 0⟩
    (.parsed [Except.ok arrA0, Except.ok arrA1, Except.ok arrA2] (some (-4)))).1

/-! ### Lemmas and claim theorems -/

/-! ### Roots of unity and inversion of the embedded DFT -/

/-- A nontrivial `n`-th root of unity `exp(2πi·m/n)` with `0 < |m| < n` is
not `1`. -/
theorem exp_ratio_ne_one (n : ℕ) (m : ℤ) (hm : m ≠ 0) (habs : m.natAbs < n) :
    Complex.exp (2 * Real.pi * I * m / n) ≠ 1 := by
  intro h
  rw [Complex.exp_eq_one_iff] at h
  obtain ⟨t, ht⟩ := h
  have hn0 : (n : ℂ) ≠ 0 := Nat.cast_ne_zero.mpr (by omega)
  have hπ : (Real.pi : ℂ) ≠ 0 := by
    exact_mod_cast Complex.ofReal_ne_zero.mpr Real.pi_ne_zero
  have hbase : (2 : ℂ) * Real.pi * I ≠ 0 := by
    simp [hπ, Complex.I_ne_zero]
  have hmc : (m : ℂ) = t * n := by
    field_simp at ht
    have h2 : (2 : ℂ) * Real.pi * I * m = 2 * Real.pi * I * (t * n) := by
      ring_nf
      ring_nf at ht
      linear_combination ht
    exact mul_left_cancel₀ hbase h2
  have hmz : m = t * n := by exact_mod_cast hmc
  rcases eq_or_ne t 0 with rfl | ht0
  · simp at hmz; exact hm hmz
  · have h1 : (1 : ℤ) ≤ t.natAbs := by omega
    have h2 : m.natAbs = t.natAbs * n := by
      rw [hmz, Int.natAbs_mul, Int.natAbs_ofNat]
    have h3 : n ≤ t.natAbs * n := Nat.le_mul_of_pos_left n (by omega)
    omega

/-- Geometric-series kernel of the DFT: summing `exp(2πi·m·k/n)` over
`k < n` gives `n` when `m = 0` and `0` for any other `|m| < n`. -/
theorem sum_exp_kernel (n : ℕ) (m : ℤ) (habs : m.natAbs < n) :
    ∑ k ∈ Finset.range n, Complex.exp (2 * Real.pi * I * m * k / n)
      = if m = 0 then (n : ℂ) else 0 := by
  have hn : 0 < n := by omega
  have hn0 : (n : ℂ) ≠ 0 := Nat.cast_ne_zero.mpr hn.ne'
  by_cases hm : m = 0
  · subst hm
    simp
  · rw [if_neg hm]
    have hterm : ∀ k : ℕ, Complex.exp (2 * Real.pi * I * m * k / n)
        = Complex.exp (2 * Real.pi * I * m / n) ^ k := by
      intro k
      rw [← Complex.exp_nat_mul]
      congr 1
      ring
    rw [Finset.sum_congr rfl (fun k _ => hterm k)]
    rw [geom_sum_eq (exp_ratio_ne_one n m hm habs)]
    have hpow : Complex.exp (2 * Real.pi * I * m / n) ^ n = 1 := by
      rw [← Complex.exp_nat_mul]
      have harg : (n : ℂ) * (2 * Real.pi * I * m / n) = m * (2 * Real.pi * I) := by
        field_simp
        ring
      rw [harg, Complex.exp_int_mul_two_pi_mul_I]
    rw [hpow]
    simp

/-- Inversion of the embedded one-dimensional DFT at every in-range index. -/
theorem idftN_dftN (n : ℕ) (v : ℕ → ℂ) (j : ℕ) (hj : j < n) :
    idftN n (dftN n v) j = v j := by
  have hn0 : (n : ℂ) ≠ 0 := Nat.cast_ne_zero.mpr (by omega)
  unfold idftN dftN
  have step1 : ∀ k : ℕ,
      (∑ j' ∈ Finset.range n, v j' * Complex.exp (-(2 * Real.pi * I * j' * k / n)))
          * Complex.exp (2 * Real.pi * I * j * k / n)
        = ∑ j' ∈ Finset.range n,
            v j' * Complex.exp (2 * Real.pi * I * (((j : ℤ) - (j' : ℤ)) : ℂ) * k / n) := by
    intro k
    rw [Finset.sum_mul]
    refine Finset.sum_congr rfl (fun j' _ => ?_)
    rw [mul_assoc, ← Complex.exp_add]
    congr 2
    push_cast
    ring
  rw [Finset.sum_congr rfl (fun k _ => step1 k), Finset.sum_comm]
  have step2 : ∀ j' ∈ Finset.range n,
      (∑ k ∈ Finset.range n,
          v j' * Complex.exp (2 * Real.pi * I * (((j : ℤ) - (j' : ℤ)) : ℂ) * k / n))
        = v j' * (if (j : ℤ) - (j' : ℤ) = 0 then (n : ℂ) else 0) := by
    intro j' hj'
    rw [← Finset.mul_sum]
    congr 1
    have hj'n : j' < n := Finset.mem_range.mp hj'
    have habs : ((j : ℤ) - (j' : ℤ)).natAbs < n := by omega
    have := sum_exp_kernel n ((j : ℤ) - (j' : ℤ)) habs
    simpa using this
  rw [Finset.sum_congr rfl step2]
  rw [Finset.sum_eq_single j]
  · rw [if_pos (sub_self _)]
    field_simp
  · intro b _ hbj
    rw [if_neg (by omega), mul_zero]
  · intro hjmem
    exact absurd (Finset.mem_range.mpr hj) hjmem

/-- Applying the embedded inverse DFT along the second axis to a
column-transformed grid inverts only the second-axis transform. -/
theorem idftN_dftN_swap (nrow ncol : ℕ) (a : ℕ → ℕ → ℂ) (k1 j : ℕ)
    (hj : j < ncol) :
    idftN ncol (fun k2 => ∑ j1 ∈ Finset.range nrow, dftN ncol (a j1) k2 *
        Complex.exp (-(2 * Real.pi * I * j1 * k1 / nrow))) j
      = ∑ j1 ∈ Finset.range nrow, a j1 j *
          Complex.exp (-(2 * Real.pi * I * j1 * k1 / nrow)) := by
  have hinv : ∀ j1 : ℕ,
      (∑ k2 ∈ Finset.range ncol,
          dftN ncol (a j1) k2 * Complex.exp (2 * Real.pi * I * j * k2 / ncol)) / ncol
        = a j1 j := fun j1 => idftN_dftN ncol (a j1) j hj
  unfold idftN
  have key : (∑ k2 ∈ Finset.range ncol,
      (∑ j1 ∈ Finset.range nrow, dftN ncol (a j1) k2 *
          Complex.exp (-(2 * Real.pi * I * j1 * k1 / nrow))) *
        Complex.exp (2 * Real.pi * I * j * k2 / ncol))
      = ∑ j1 ∈ Finset.range nrow,
          Complex.exp (-(2 * Real.pi * I * j1 * k1 / nrow)) *
            (∑ k2 ∈ Finset.range ncol,
              dftN ncol (a j1) k2 * Complex.exp (2 * Real.pi * I * j * k2 / ncol)) := by
    rw [Finset.sum_congr rfl (fun k2 _ => Finset.sum_mul _ _ _), Finset.sum_comm]
    refine Finset.sum_congr rfl (fun j1 _ => ?_)
    rw [Finset.mul_sum]
    refine Finset.sum_congr rfl (fun k2 _ => ?_)
    ring
  rw [key, Finset.sum_div]
  refine Finset.sum_congr rfl (fun j1 _ => ?_)
  rw [mul_div_assoc, hinv j1]
  ring

/-- Inversion of the embedded two-dimensional FFT at every in-range pixel. -/
theorem ifft2_fft2 (hgt wdt : ℕ) (a : ℕ → ℕ → ℂ) (i j : ℕ)
    (hi : i < hgt) (hj : j < wdt) :
    ifft2 hgt wdt (fft2 hgt wdt a) i j = a i j := by
  unfold ifft2 fft2
  have inner : ∀ k1,
      idftN wdt (fun k2 => dftN hgt (fun j1 => dftN wdt (a j1) k2) k1) j
        = dftN hgt (fun j1 => a j1 j) k1 := by
    intro k1
    have hd : (fun k2 => dftN hgt (fun j1 => dftN wdt (a j1) k2) k1)
        = fun k2 => ∑ j1 ∈ Finset.range hgt, dftN wdt (a j1) k2 *
            Complex.exp (-(2 * Real.pi * I * j1 * k1 / hgt)) := rfl
    rw [hd, idftN_dftN_swap hgt wdt a k1 j hj]
    rfl
  rw [show (fun k1 => idftN wdt (fun k2 => dftN hgt (fun j1 => dftN wdt (a j1) k2) k1) j)
      = fun k1 => dftN hgt (fun j1 => a j1 j) k1 from funext inner]
  exact idftN_dftN hgt (fun j1 => a j1 j) i hi

/-- Rolling an index forward by `n/2` and back again is the identity
modulo `n`. -/
theorem shift_unshift_idx (n x : ℕ) :
    ((x + n / 2) % n + (n - n / 2)) % n = x % n := by
  rw [Nat.mod_add_mod, Nat.add_assoc, Nat.add_sub_cancel' (Nat.div_le_self n 2),
    Nat.add_mod_right]

/-- `ifftshift` undoes `fftshift` (up to reduction of the indices). -/
theorem ifftshift2_fftshift2 {α : Type} (hgt wdt : ℕ) (M : ℕ → ℕ → α)
    (i j : ℕ) :
    ifftshift2 hgt wdt (fftshift2 hgt wdt M) i j = M (i % hgt) (j % wdt) := by
  unfold ifftshift2 fftshift2
  rw [shift_unshift_idx, shift_unshift_idx]

/-- The embedded inverse FFT only reads its input at in-range indices. -/
theorem ifft2_congr (hgt wdt : ℕ) (A B : ℕ → ℕ → ℂ)
    (h : ∀ k1 k2, k1 < hgt → k2 < wdt → A k1 k2 = B k1 k2) (i j : ℕ) :
    ifft2 hgt wdt A i j = ifft2 hgt wdt B i j := by
  unfold ifft2 idftN
  congr 1
  refine Finset.sum_congr rfl (fun k1 hk1 => ?_)
  have hin : (∑ k2 ∈ Finset.range wdt,
      A k1 k2 * Complex.exp (2 * Real.pi * I * j * k2 / wdt))
      = ∑ k2 ∈ Finset.range wdt,
          B k1 k2 * Complex.exp (2 * Real.pi * I * j * k2 / wdt) :=
    Finset.sum_congr rfl (fun k2 hk2 => by
      rw [h k1 k2 (Finset.mem_range.mp hk1) (Finset.mem_range.mp hk2)])
  beta_reduce
  rw [hin]

/-- Inverse-transforming the unshifted shift of a grid is the same as
inverse-transforming the grid itself. -/
theorem ifft2_unshift_shift (hgt wdt : ℕ) (M : ℕ → ℕ → ℂ) (i j : ℕ) :
    ifft2 hgt wdt (ifftshift2 hgt wdt (fftshift2 hgt wdt M)) i j
      = ifft2 hgt wdt M i j := by
  apply ifft2_congr
  intro k1 k2 hk1 hk2
  rw [ifftshift2_fftshift2, Nat.mod_eq_of_lt hk1, Nat.mod_eq_of_lt hk2]

/-- The pixel rectangle of the full-spectrum region covers the whole grid. -/
theorem maskRect_full (hgt wdt : ℕ) (h1 : 0 < hgt) (h2 : 0 < wdt) :
    maskRect hgt wdt fullRegion = (0, (wdt : ℤ), 0, (hgt : ℤ)) := by
  unfold maskRect fullRegion pyInt
  norm_num [Int.floor_natCast]
  omega

/-- The full-spectrum `inner` mask is identically 1 on the grid. -/
theorem createFrequencyMask_full (hgt wdt i j : ℕ) (hi : i < hgt)
    (hj : j < wdt) :
    createFrequencyMask hgt wdt "inner" fullRegion i j = 1 := by
  unfold createFrequencyMask
  rw [if_pos rfl, maskRect_full hgt wdt (by omega) (by omega),
    if_pos (by unfold inMaskRect; refine ⟨by simp, by simp; omega⟩)]

/-- Trace of `mix_images` for a single loaded image mixed with itself:
modes `{key: magnitude_phase}`, `weights_a = {key: wA}`, and a `weights_b`
dict whose only relevant binding is `key ↦ wB` (possibly absent, giving
`wB = 0`), under the full-spectrum region. -/
theorem mixImagesCore_single (orig : List (String × ImgN)) (key : String)
    (hh ww : ℕ) (px : ℕ → ℕ → ℝ)
    (hload : dlookup orig key = some ⟨hh, ww, px⟩)
    (wA wB : ℝ) (wbl : List (String × ℝ))
    (hwb : (dlookup wbl key).getD 0 = wB)
    (hkeys : (key :: wbl.map Prod.fst).dedup = [key])
    (hW : ¬(wA = 0 ∧ wB = 0)) :
    mixImagesCore orig [(key, "magnitude_phase")] [(key, wA)] wbl fullRegion
      = .ok (mixSingleResult hh ww px wA wB) := by
  unfold mixImagesCore
  simp only [hload, List.map_cons, List.map_nil, List.cons_append, List.nil_append,
    hkeys, List.foldlM_cons, List.foldlM_nil]
  unfold processKey
  simp only [hload, dlookup, eq_self_iff_true, if_true, Option.getD_some, hwb, and_self]
  rw [if_neg hW]
  simp only [zero_add, bind_pure]
  unfold mixSingleResult
  rfl

/-- The polarity stored in the full-spectrum region. -/
theorem fullRegion_type : fullRegion.type = "inner" := rfl

/-- Congruence through the inverse shift: the inverse FFT of the inverse
shift only reads the shifted grid at in-range indices. -/
theorem ifft2_ifftshift2_congr (hgt wdt : ℕ) (A B : ℕ → ℕ → ℂ)
    (hh0 : 0 < hgt) (hw0 : 0 < wdt)
    (h : ∀ k1 k2, k1 < hgt → k2 < wdt → A k1 k2 = B k1 k2) (i j : ℕ) :
    ifft2 hgt wdt (ifftshift2 hgt wdt A) i j
      = ifft2 hgt wdt (ifftshift2 hgt wdt B) i j := by
  apply ifft2_congr
  intro k1 k2 _ _
  unfold ifftshift2
  exact h _ _ (Nat.mod_lt _ hh0) (Nat.mod_lt _ hw0)

/-- With unit weights on both components, the single-image
`magnitude_phase` mix under the full-spectrum mask reconstructs the
original pixel values exactly (before the final floor they are unchanged
reals in `[0, 255]`). -/
theorem mixSingleResult_identity_px (hh ww : ℕ) (px : ℕ → ℕ → ℝ)
    (hpos : ∀ i j, i < hh → j < ww → 0 ≤ px i j)
    (hbound : ∀ i j, i < hh → j < ww → px i j ≤ 255)
    (i j : ℕ) (hi : i < hh) (hj : j < ww) :
    (mixSingleResult hh ww px 1 1).px i j = ⌊px i j⌋₊ := by
  have hh0 : 0 < hh := by omega
  have hw0 : 0 < ww := by omega
  show ⌊npClip255 (Complex.abs (ifft2 hh ww (ifftshift2 hh ww (fun p q =>
      ((Complex.abs (fftshift2 hh ww (fft2 hh ww (fun r c => ((px r c : ℝ) : ℂ))) p q)
          * createFrequencyMask hh ww fullRegion.type fullRegion p q * 1 : ℝ) : ℂ) *
      Complex.exp (I * (((fftshift2 hh ww (fft2 hh ww (fun r c => ((px r c : ℝ) : ℂ))) p q).arg
          * createFrequencyMask hh ww fullRegion.type fullRegion p q * 1 : ℝ) : ℂ)))) i j))⌋₊
    = ⌊px i j⌋₊
  have hcomb : ∀ p q, p < hh → q < ww →
      ((Complex.abs (fftshift2 hh ww (fft2 hh ww (fun r c => ((px r c : ℝ) : ℂ))) p q)
          * createFrequencyMask hh ww fullRegion.type fullRegion p q * 1 : ℝ) : ℂ) *
        Complex.exp (I * (((fftshift2 hh ww (fft2 hh ww (fun r c => ((px r c : ℝ) : ℂ))) p q).arg
          * createFrequencyMask hh ww fullRegion.type fullRegion p q * 1 : ℝ) : ℂ))
      = fftshift2 hh ww (fft2 hh ww (fun r c => ((px r c : ℝ) : ℂ))) p q := by
    intro p q hp hq
    rw [fullRegion_type, createFrequencyMask_full hh ww p q hp hq]
    rw [mul_one, mul_one, mul_one, mul_one]
    rw [mul_comm I _]
    exact Complex.abs_mul_exp_arg_mul_I _
  rw [ifft2_ifftshift2_congr hh ww _ _ hh0 hw0 hcomb i j]
  rw [ifft2_unshift_shift, ifft2_fft2 hh ww _ i j hi hj]
  rw [Complex.abs_ofReal]
  have habs : |px i j| = px i j := abs_of_nonneg (hpos i j hi hj)
  rw [habs]
  unfold npClip255
  rw [max_eq_left (hpos i j hi hj), min_eq_left (hbound i j hi hj)]

/-- The value of `exp(-πi)`. -/
theorem exp_neg_pi_I : Complex.exp (-(Real.pi * I)) = -1 := by
  rw [Complex.exp_neg, Complex.exp_pi_mul_I]
  norm_num

/-- The embedded DFT of length 1 is the identity on the single sample. -/
theorem dftN_one (v : ℕ → ℂ) (k : ℕ) : dftN 1 v k = v 0 := by
  unfold dftN
  rw [Finset.sum_range_one]
  norm_num

/-- The embedded inverse DFT of length 1 is the identity. -/
theorem idftN_one (v : ℕ → ℂ) (j : ℕ) : idftN 1 v j = v 0 := by
  unfold idftN
  rw [Finset.sum_range_one]
  norm_num

/-- Closed form of the embedded DFT of length 2. -/
theorem dftN_two (v : ℕ → ℂ) (k : ℕ) :
    dftN 2 v k = v 0 + v 1 * Complex.exp (-(Real.pi * I * k)) := by
  unfold dftN
  rw [Finset.sum_range_succ, Finset.sum_range_one]
  have e2 : (-(2 * (Real.pi : ℂ) * I * ((1 : ℕ) : ℂ) * (k : ℂ) / ((2 : ℕ) : ℂ)))
      = -(Real.pi * I * k) := by
    push_cast
    ring
  rw [e2]
  norm_num

/-- Closed form of the embedded inverse DFT of length 2. -/
theorem idftN_two (v : ℕ → ℂ) (j : ℕ) :
    idftN 2 v j = (v 0 + v 1 * Complex.exp (Real.pi * I * j)) / 2 := by
  unfold idftN
  rw [Finset.sum_range_succ, Finset.sum_range_one]
  have e2 : ((2 : ℂ) * (Real.pi : ℂ) * I * (j : ℂ) * ((1 : ℕ) : ℂ) / ((2 : ℕ) : ℂ))
      = Real.pi * I * j := by
    push_cast
    ring
  rw [e2]
  norm_num

/-- Row 0 of the shifted spectrum of the test image: the zero-phase
magnitude surrogate at both frequencies is `100`, but the spectrum itself
is `[-100, 100]`. -/
theorem fftC1_eval : ∀ k2 : ℕ,
    fft2 1 2 (fun r c => ((pixC1 r c : ℝ) : ℂ)) 0 k2
      = 100 * Complex.exp (-(Real.pi * I * k2)) := by
  intro k2
  unfold fft2
  rw [dftN_one, dftN_two]
  norm_num [pixC1]

/-- The shifted spectrum of the test image at frequency (0,0) is `-100`. -/
theorem fftshiftC1_00 :
    fftshift2 1 2 (fft2 1 2 (fun r c => ((pixC1 r c : ℝ) : ℂ))) 0 0 = -100 := by
  show fft2 1 2 (fun r c => ((pixC1 r c : ℝ) : ℂ)) 0 1 = -100
  rw [fftC1_eval 1]
  have e1 : (-(Real.pi * I * ((1 : ℕ) : ℂ))) = -(Real.pi * I) := by
    push_cast
    ring
  rw [e1, exp_neg_pi_I]
  norm_num

/-- The shifted spectrum of the test image at frequency (0,1) is `100`. -/
theorem fftshiftC1_01 :
    fftshift2 1 2 (fft2 1 2 (fun r c => ((pixC1 r c : ℝ) : ℂ))) 0 1 = 100 := by
  show fft2 1 2 (fun r c => ((pixC1 r c : ℝ) : ℂ)) 0 0 = 100
  rw [fftC1_eval 0]
  norm_num

/-- Evaluation of the zero-phase-weight mix pipeline on the test image at
pixel (0,1): the inverse transform of the magnitude-only spectrum gives 0
there, although the original pixel is 100. -/
theorem mixSingleResultC1_eval :
    (mixSingleResult 1 2 (fun r c => (pixC1 r c : ℝ)) 1 0).px 0 1 = 0 := by
  show ⌊npClip255 (Complex.abs (ifft2 1 2 (ifftshift2 1 2 (fun p q =>
      ((Complex.abs (fftshift2 1 2 (fft2 1 2 (fun r c => ((pixC1 r c : ℝ) : ℂ))) p q)
          * createFrequencyMask 1 2 fullRegion.type fullRegion p q * 1 : ℝ) : ℂ) *
      Complex.exp (I * (((fftshift2 1 2 (fft2 1 2 (fun r c => ((pixC1 r c : ℝ) : ℂ))) p q).arg
          * createFrequencyMask 1 2 fullRegion.type fullRegion p q * 0 : ℝ) : ℂ)))) 0 1))⌋₊
    = 0
  have hmask : ∀ q, q < 2 → createFrequencyMask 1 2 fullRegion.type fullRegion 0 q = 1 := by
    intro q hq
    rw [fullRegion_type]
    exact createFrequencyMask_full 1 2 0 q (by omega) hq
  have hcomb : ∀ q, q < 2 →
      ((Complex.abs (fftshift2 1 2 (fft2 1 2 (fun r c => ((pixC1 r c : ℝ) : ℂ))) 0 q)
          * createFrequencyMask 1 2 fullRegion.type fullRegion 0 q * 1 : ℝ) : ℂ) *
      Complex.exp (I * (((fftshift2 1 2 (fft2 1 2 (fun r c => ((pixC1 r c : ℝ) : ℂ))) 0 q).arg
          * createFrequencyMask 1 2 fullRegion.type fullRegion 0 q * 0 : ℝ) : ℂ))
        = ((Complex.abs (fftshift2 1 2 (fft2 1 2 (fun r c => ((pixC1 r c : ℝ) : ℂ))) 0 q) : ℝ) : ℂ) := by
    intro q hq
    rw [hmask q hq]
    norm_num [Complex.exp_zero]
  have habs00 : Complex.abs (fftshift2 1 2 (fft2 1 2 (fun r c => ((pixC1 r c : ℝ) : ℂ))) 0 0) = 100 := by
    rw [fftshiftC1_00, Complex.abs.map_neg, Complex.abs_ofNat]
  have habs01 : Complex.abs (fftshift2 1 2 (fft2 1 2 (fun r c => ((pixC1 r c : ℝ) : ℂ))) 0 1) = 100 := by
    rw [fftshiftC1_01, Complex.abs_ofNat]
  have hback : ifft2 1 2 (ifftshift2 1 2 (fun p q =>
      ((Complex.abs (fftshift2 1 2 (fft2 1 2 (fun r c => ((pixC1 r c : ℝ) : ℂ))) p q)
          * createFrequencyMask 1 2 fullRegion.type fullRegion p q * 1 : ℝ) : ℂ) *
      Complex.exp (I * (((fftshift2 1 2 (fft2 1 2 (fun r c => ((pixC1 r c : ℝ) : ℂ))) p q).arg
          * createFrequencyMask 1 2 fullRegion.type fullRegion p q * 0 : ℝ) : ℂ)))) 0 1 = 0 := by
    unfold ifft2
    rw [idftN_one]
    rw [idftN_two]
    show (((Complex.abs (fftshift2 1 2 (fft2 1 2 (fun r c => ((pixC1 r c : ℝ) : ℂ))) 0 1)
          * createFrequencyMask 1 2 fullRegion.type fullRegion 0 1 * 1 : ℝ) : ℂ) *
      Complex.exp (I * (((fftshift2 1 2 (fft2 1 2 (fun r c => ((pixC1 r c : ℝ) : ℂ))) 0 1).arg
          * createFrequencyMask 1 2 fullRegion.type fullRegion 0 1 * 0 : ℝ) : ℂ))
      + ((Complex.abs (fftshift2 1 2 (fft2 1 2 (fun r c => ((pixC1 r c : ℝ) : ℂ))) 0 0)
          * createFrequencyMask 1 2 fullRegion.type fullRegion 0 0 * 1 : ℝ) : ℂ) *
      Complex.exp (I * (((fftshift2 1 2 (fft2 1 2 (fun r c => ((pixC1 r c : ℝ) : ℂ))) 0 0).arg
          * createFrequencyMask 1 2 fullRegion.type fullRegion 0 0 * 0 : ℝ) : ℂ)) *
      Complex.exp (Real.pi * I * ((1 : ℕ) : ℂ))) / 2 = 0
    rw [hcomb 1 (by omega), hcomb 0 (by omega), habs00, habs01]
    have e1 : ((Real.pi : ℂ) * I * ((1 : ℕ) : ℂ)) = Real.pi * I := by
      push_cast
      ring
    rw [e1, Complex.exp_pi_mul_I]
    norm_num
  rw [hback]
  norm_num [npClip255]

/-- C8: for every mask shape and every rectangle parameter set, the mask
produced by `_create_frequency_mask` with type `inner` and the mask produced
with type `outer` for the same rectangle are exact complements: at every
pixel exactly one of the two masks is 1 and the other is 0. -/
theorem c8_mask_complement (hgt wdt : ℕ) (rc : Region) (i j : ℕ) :
    (createFrequencyMask hgt wdt "inner" rc i j = 1 ∧
      createFrequencyMask hgt wdt "outer" rc i j = 0) ∨
    (createFrequencyMask hgt wdt "inner" rc i j = 0 ∧
      createFrequencyMask hgt wdt "outer" rc i j = 1) := by
  by_cases h : inMaskRect (maskRect hgt wdt rc) i j
  · left; simp [createFrequencyMask, h]
  · right; simp [createFrequencyMask, h]

/-- C1 (corrected): for every loaded image with byte-valued pixels,
`mix_images` with `magnitude_phase` mode, `weightsA = {A: 1.0}`,
`weightsB = {A: 1.0}`, and the full-spectrum inner region returns a spatial
array equal to the image's original pixel content exactly.  (The claim as
stated, with `weightsB = {}`, zeroes the phase accumulator and is refuted
by `c1_counterexample`; restoring the identity requires the unit phase
weight.) -/
theorem c1_mix_identity (s : ViewerState) (key : String) (hh ww : ℕ)
    (pix : ℕ → ℕ → ℕ)
    (hload : dlookup s.original_images key
      = some ⟨hh, ww, fun r c => (pix r c : ℝ)⟩)
    (hbound : ∀ i j, i < hh → j < ww → pix i j ≤ 255) :
    ∃ out : OutImg,
      mix_images s [(key, "magnitude_phase")] [(key, 1)] [(key, 1)] fullRegion
        = .ok out
      ∧ out.h = hh ∧ out.w = ww
      ∧ ∀ i j, i < hh → j < ww → out.px i j = pix i j := by
  refine ⟨mixSingleResult hh ww (fun r c => (pix r c : ℝ)) 1 1, ?_, rfl, rfl, ?_⟩
  · unfold mix_images
    exact mixImagesCore_single s.original_images key hh ww
      (fun r c => (pix r c : ℝ)) hload 1 1 [(key, 1)]
      (by simp [dlookup]) (by simp) (by norm_num)
  · intro i j hi hj
    have hpx := mixSingleResult_identity_px hh ww (fun r c => (pix r c : ℝ))
      (fun p q _ _ => Nat.cast_nonneg _)
      (fun p q hp hq => by
        show ((pix p q : ℕ) : ℝ) ≤ 255
        exact_mod_cast hbound p q hp hq) i j hi hj
    rw [hpx]
    show ⌊((pix i j : ℕ) : ℝ)⌋₊ = pix i j
    exact Nat.floor_natCast _

/-- Witness for `c1_mix_identity` at the concrete 1×1 image of value 7. -/
theorem c1_witness :
    (∀ i j, i < 1 → j < 1 → pixW1 i j ≤ 255) ∧
    ∃ out : OutImg,
      mix_images viewerW1 [("img1", "magnitude_phase")] [("img1", 1)]
          [("img1", 1)] fullRegion = .ok out
      ∧ out.h = 1 ∧ out.w = 1
      ∧ ∀ i j, i < 1 → j < 1 → out.px i j = pixW1 i j := by
  have hb : ∀ i j, i < 1 → j < 1 → pixW1 i j ≤ 255 := by
    intro i j _ _
    unfold pixW1
    omega
  have hl : dlookup viewerW1.original_images "img1"
      = some ⟨1, 1, fun r c => (pixW1 r c : ℝ)⟩ := by
    simp [viewerW1, imgW1, dlookup]
  exact ⟨hb, c1_mix_identity viewerW1 "img1" 1 1 pixW1 hl hb⟩

/-- C1 counterexample: with `weightsB = {}` exactly as the claim states,
the phase accumulator is weighted by 0, and for the loaded 1×2 image
`[0, 100]` the mix output at pixel (0,1) is 0 although the original pixel
there is 100 — the identity mixing law fails as stated. -/
theorem c1_counterexample :
    mixPx (mix_images viewerC1 [("img1", "magnitude_phase")] [("img1", 1)] []
        fullRegion) 0 1 = 0
    ∧ imgC1.px 0 1 = 100 ∧ (0 : ℕ) ≠ 100 := by
  refine ⟨?_, ?_, by omega⟩
  · have hl : dlookup viewerC1.original_images "img1"
        = some ⟨1, 2, fun r c => (pixC1 r c : ℝ)⟩ := by
      simp [viewerC1, imgC1, dlookup]
    have h := mixImagesCore_single viewerC1.original_images "img1" 1 2
      (fun r c => (pixC1 r c : ℝ)) hl 1 0 [] rfl (by simp) (by norm_num)
    unfold mix_images
    rw [h]
    show (mixSingleResult 1 2 (fun r c => (pixC1 r c : ℝ)) 1 0).px 0 1 = 0
    exact mixSingleResultC1_eval
  · norm_num [imgC1, pixC1]

/-- C2: brightness/contrast adjustments are display-only — for every state,
image key, input values and reference mode, `apply_brightness_contrast`
leaves `original_images` unchanged, and because `mix_images` computes all
its FFTs from `original_images` alone, the mixing output after the
adjustment is identical to the output before it. -/
theorem c2_adjustments_display_only (s : ViewerState) (key : String)
    (brightness contrast : ℝ) (reference : String)
    (modes : List (String × String)) (wa wb : List (String × ℝ))
    (rp : Region) :
    (apply_brightness_contrast s key brightness contrast reference).1.original_images
        = s.original_images
    ∧ mix_images (apply_brightness_contrast s key brightness contrast reference).1
        modes wa wb rp
      = mix_images s modes wa wb rp := by
  have horig :
      (apply_brightness_contrast s key brightness contrast reference).1.original_images
        = s.original_images := by
    unfold apply_brightness_contrast
    rcases h : dlookup s.images key with _ | img
    · rfl
    · simp only []
      by_cases href : reference = "original"
      · rw [if_pos href]
        rcases h2 : dlookup s.original_images key with _ | img2
        · rfl
        · rfl
      · rw [if_neg href]
  refine ⟨horig, ?_⟩
  unfold mix_images
  rw [horig]

/-- C3 (code bug): for every state in which the image is loaded, calling
`apply_brightness_contrast` with `reference='current'` does not perform the
documented ratio-based delta adjustment; it raises
`ValueError("Invalid reference mode: current")`, contradicting both the
function's own docstring and the caller in `views.py`, which whitelists
`'current'`. -/
theorem c3_current_mode_raises (s : ViewerState) (key : String)
    (brightness contrast : ℝ)
    (hkey : (dlookup s.images key).isSome = true) :
    (apply_brightness_contrast s key brightness contrast "current").2
      = .error .invalidReference := by
  unfold apply_brightness_contrast
  rcases h : dlookup s.images key with _ | img
  · rw [h] at hkey
    simp at hkey
  · simp only []
    rw [if_neg (by decide : ¬("current" = "original"))]

/-- Witness for `c3_current_mode_raises` at the concrete loaded session. -/
theorem c3_witness :
    (dlookup viewerW1.images "img1").isSome = true ∧
    (apply_brightness_contrast viewerW1 "img1" 1 1 "current").2
      = .error .invalidReference := by
  have hk : (dlookup viewerW1.images "img1").isSome = true := by
    simp [viewerW1, dlookup]
  exact ⟨hk, c3_current_mode_raises viewerW1 "img1" 1 1 hk⟩

/-- C4 (code bug): with both weight dicts empty, `mix_images` does not fail
with the documented typed `NoWeights` error (nor return the docstring's
`None`): `next(iter(weights_a.keys()))` raises an uncaught `StopIteration`,
for every session state, mode dict and region. -/
theorem c4_empty_weights_stopiteration (s : ViewerState)
    (modes : List (String × String)) (rp : Region) :
    mix_images s modes [] [] rp = .error .stopIteration := rfl

/-! ### Phase wrapping (C7) -/

/-- The subtracting wrap loop never ends above 180. -/
theorem wrapDown_le_aux : ∀ n : ℕ, ∀ x : ℝ,
    ⌈(x - 180) / 360⌉₊ ≤ n → wrapDown x ≤ 180 := by
  intro n
  induction n with
  | zero =>
    intro x hx
    have hle : (x - 180) / 360 ≤ 0 := by
      by_contra hc
      push_neg at hc
      have := Nat.ceil_pos.mpr hc
      omega
    have hx180 : x ≤ 180 := by nlinarith
    rw [wrapDown, dif_neg (by linarith)]
    exact hx180
  | succ n ih =>
    intro x hx
    by_cases h : 180 < x
    · rw [wrapDown, dif_pos h]
      apply ih
      have ht : (0 : ℝ) < (x - 180) / 360 := div_pos (by linarith) (by norm_num)
      have h1 : 0 < ⌈(x - 180) / 360⌉₊ := Nat.ceil_pos.mpr ht
      have h2 : ⌈(x - 360 - 180) / 360⌉₊ ≤ ⌈(x - 180) / 360⌉₊ - 1 := by
        apply Nat.ceil_le.mpr
        have h3 := Nat.le_ceil ((x - 180) / 360)
        have h4 : ((⌈(x - 180) / 360⌉₊ - 1 : ℕ) : ℝ)
            = (⌈(x - 180) / 360⌉₊ : ℝ) - 1 := by
          exact_mod_cast Nat.cast_sub h1
        rw [h4]
        linarith
      omega
    · rw [wrapDown, dif_neg h]
      linarith

/-- The subtracting wrap loop ends at or below 180. -/
theorem wrapDown_le (x : ℝ) : wrapDown x ≤ 180 :=
  wrapDown_le_aux ⌈(x - 180) / 360⌉₊ x le_rfl

/-- The adding wrap loop never ends below -180. -/
theorem wrapUp_ge_aux : ∀ n : ℕ, ∀ x : ℝ,
    ⌈(-180 - x) / 360⌉₊ ≤ n → -180 ≤ wrapUp x := by
  intro n
  induction n with
  | zero =>
    intro x hx
    have hle : (-180 - x) / 360 ≤ 0 := by
      by_contra hc
      push_neg at hc
      have := Nat.ceil_pos.mpr hc
      omega
    have hxge : -180 ≤ x := by nlinarith
    rw [wrapUp, dif_neg (by linarith)]
    exact hxge
  | succ n ih =>
    intro x hx
    by_cases h : x < -180
    · rw [wrapUp, dif_pos h]
      apply ih
      have ht : (0 : ℝ) < (-180 - x) / 360 := div_pos (by linarith) (by norm_num)
      have h1 : 0 < ⌈(-180 - x) / 360⌉₊ := Nat.ceil_pos.mpr ht
      have h2 : ⌈(-180 - (x + 360)) / 360⌉₊ ≤ ⌈(-180 - x) / 360⌉₊ - 1 := by
        apply Nat.ceil_le.mpr
        have h3 := Nat.le_ceil ((-180 - x) / 360)
        have h4 : ((⌈(-180 - x) / 360⌉₊ - 1 : ℕ) : ℝ)
            = (⌈(-180 - x) / 360⌉₊ : ℝ) - 1 := by
          exact_mod_cast Nat.cast_sub h1
        rw [h4]
        linarith
      omega
    · rw [wrapUp, dif_neg h]
      linarith

/-- The adding wrap loop ends at or above -180. -/
theorem wrapUp_ge (x : ℝ) : -180 ≤ wrapUp x :=
  wrapUp_ge_aux ⌈(-180 - x) / 360⌉₊ x le_rfl

/-- The adding wrap loop preserves an upper bound of 180. -/
theorem wrapUp_le_aux : ∀ n : ℕ, ∀ x : ℝ,
    ⌈(-180 - x) / 360⌉₊ ≤ n → x ≤ 180 → wrapUp x ≤ 180 := by
  intro n
  induction n with
  | zero =>
    intro x hx hle
    have h0 : (-180 - x) / 360 ≤ 0 := by
      by_contra hc
      push_neg at hc
      have := Nat.ceil_pos.mpr hc
      omega
    have hxge : -180 ≤ x := by nlinarith
    rw [wrapUp, dif_neg (by linarith)]
    exact hle
  | succ n ih =>
    intro x hx hle
    by_cases h : x < -180
    · rw [wrapUp, dif_pos h]
      apply ih
      · have ht : (0 : ℝ) < (-180 - x) / 360 := div_pos (by linarith) (by norm_num)
        have h1 : 0 < ⌈(-180 - x) / 360⌉₊ := Nat.ceil_pos.mpr ht
        have h2 : ⌈(-180 - (x + 360)) / 360⌉₊ ≤ ⌈(-180 - x) / 360⌉₊ - 1 := by
          apply Nat.ceil_le.mpr
          have h3 := Nat.le_ceil ((-180 - x) / 360)
          have h4 : ((⌈(-180 - x) / 360⌉₊ - 1 : ℕ) : ℝ)
              = (⌈(-180 - x) / 360⌉₊ : ℝ) - 1 := by
            exact_mod_cast Nat.cast_sub h1
          rw [h4]
          linarith
        omega
      · linarith
    · rw [wrapUp, dif_neg h]
      exact hle

/-- The wrap applied by `calculate_phases` always lands in the closed
interval `[-180, 180]` (the endpoint `-180` is attainable, so the interval
is not half-open). -/
theorem pyWrap_mem (x : ℝ) : -180 ≤ pyWrap x ∧ pyWrap x ≤ 180 := by
  unfold pyWrap
  exact ⟨wrapUp_ge _, wrapUp_le_aux ⌈(-180 - wrapDown x) / 360⌉₊ _ le_rfl (wrapDown_le x)⟩

/-- C7 (corrected): after `calculate_phases`, every element's phase lies in
the closed interval `[-180, 180]`, for every phase profile, steering angle,
random draw and initial element phase.  (The claimed half-open interval
`(-180, 180]` fails: `-180` is a fixed point of the wrap, see
`c7_counterexample`.) -/
theorem c7_phase_range (arr : PhasedArrayM) (rand : ℕ → ℝ) (e : ArrayElement)
    (he : e ∈ (calculate_phases arr rand).elements) :
    -180 ≤ e.phase ∧ e.phase ≤ 180 := by
  unfold calculate_phases at he
  simp only [List.mem_map] at he
  obtain ⟨p, _, hpe⟩ := he
  rw [← hpe]
  exact pyWrap_mem _

/-- Witness for `c7_phase_range` at the concrete one-element array. -/
theorem c7_witness :
    -180 ≤ ({ elemW7 with
        phase := pyWrap (steeredPhase arrW7 0
          (profilePhase arrW7 (fun _ => 0) 0 elemW7)) } : ArrayElement).phase
    ∧ ({ elemW7 with
        phase := pyWrap (steeredPhase arrW7 0
          (profilePhase arrW7 (fun _ => 0) 0 elemW7)) } : ArrayElement).phase ≤ 180 := by
  apply c7_phase_range arrW7 (fun _ => 0)
  show _ ∈ (calculate_phases arrW7 (fun _ => 0)).elements
  exact List.mem_singleton_self _

/-! ### Array factor and near field (C5, C6) -/

/-- Python `complex(cos t, sin t)` is `exp(i·t)`. -/
theorem npComplexMk_cos_sin (t : ℝ) :
    npComplexMk (Real.cos t) (Real.sin t) = Complex.exp (I * ((t : ℝ) : ℂ)) := by
  rw [mul_comm I (((t : ℝ)) : ℂ)]
  apply Complex.ext
  · rw [Complex.exp_ofReal_mul_I_re]
    rfl
  · rw [Complex.exp_ofReal_mul_I_im]
    rfl

/-- Two pointwise-equal functions give equal mapped sums. -/
theorem map_sum_congr {α : Type} (f g : α → ℂ) (h : ∀ a, f a = g a)
    (l : List α) : (l.map f).sum = (l.map g).sum := by
  rw [funext h]

/-- The skip-inactive accumulation loop of `calculate_beam_pattern` is the
sum of the contribution over the active elements. -/
theorem foldl_if_active (l : List ArrayElement) (f : ArrayElement → ℂ)
    (init : ℂ) :
    l.foldl (fun acc e => if e.is_active then acc + f e else acc) init
      = init + ((l.filter (fun e => e.is_active)).map f).sum := by
  induction l generalizing init with
  | nil => simp
  | cons a t ih =>
    cases ha : a.is_active with
    | false => simp [List.foldl_cons, ha, ih]
    | true =>
      simp only [List.foldl_cons, ha, if_true, List.filter_cons, List.map_cons,
        List.sum_cons, ih]
      ring

/-- The skip-inactive, skip-zero-distance accumulation loop of
`calculate_field_at_point` is the sum over active elements of a
contribution that vanishes at zero distance. -/
theorem foldl_field (l : List ArrayElement) (d : ArrayElement → ℝ)
    (f : ArrayElement → ℂ) (init : ℂ) :
    l.foldl (fun acc e =>
        if e.is_active then (if d e = 0 then acc else acc + f e) else acc) init
      = init + ((l.filter (fun e => e.is_active)).map
          (fun e => if d e = 0 then 0 else f e)).sum := by
  induction l generalizing init with
  | nil => simp
  | cons a t ih =>
    cases ha : a.is_active with
    | false => simp [List.foldl_cons, ha, ih]
    | true =>
      by_cases hd : d a = 0
      · simp [List.foldl_cons, ha, hd, ih]
      · simp [List.foldl_cons, ha, hd, ih]
        ring

/-- Pointwise closed form of the complex array factor accumulated by
`calculate_beam_pattern` at one angle. -/
theorem patternAt_eq (arr : PhasedArrayM) (angle : ℝ) :
    patternAt arr angle
      = ((arr.elements.filter (fun e => e.is_active)).map (fun e =>
          (e.amplitude : ℂ) * Complex.exp (I *
            ((2 * Real.pi / (300 / arr.frequency) *
                (e.position_x * Real.sin (radiansR angle) +
                  e.position_y * Real.cos (radiansR angle)) +
              radiansR e.phase : ℝ) : ℂ)))).sum := by
  simp only [patternAt]
  rw [foldl_if_active, zero_add]
  apply map_sum_congr
  intro e
  rw [npComplexMk_cos_sin]

/-- C5 (corrected): `calculate_beam_pattern` returns, at each angle, the
magnitude of the complex sum over active elements of
`amplitude·exp(i·(k·(x·sinθ + y·cosθ) + phase_rad))` **divided by the
number of active elements** (the normalized array factor); inactive
elements contribute nothing.  The claim as stated omits the normalization
and is refuted by `c5_counterexample`. -/
theorem c5_pattern_normalized (arr : PhasedArrayM) (angles : List ℝ) :
    calculate_beam_pattern arr angles
      = angles.map (fun angle =>
          Complex.abs (((arr.elements.filter (fun e => e.is_active)).map (fun e =>
            (e.amplitude : ℂ) * Complex.exp (I *
              ((2 * Real.pi / (300 / arr.frequency) *
                  (e.position_x * Real.sin (radiansR angle) +
                    e.position_y * Real.cos (radiansR angle)) +
                radiansR e.phase : ℝ) : ℂ)))).sum)
            / ((arr.elements.filter (fun e => e.is_active)).length : ℝ)) := by
  unfold calculate_beam_pattern
  simp only [patternAt_eq]

/-- C5 counterexample: for the two-element array at angle 0 the complex sum
of the claim has magnitude 2, but `calculate_beam_pattern` returns 1 (the
magnitude divided by the active-element count). -/
theorem c5_counterexample :
    calculate_beam_pattern arrC5 [0] = [1]
    ∧ Complex.abs (((arrC5.elements.filter (fun e => e.is_active)).map (fun e =>
        (e.amplitude : ℂ) * Complex.exp (I *
          ((2 * Real.pi / (300 / arrC5.frequency) *
              (e.position_x * Real.sin (radiansR 0) +
                e.position_y * Real.cos (radiansR 0)) +
            radiansR e.phase : ℝ) : ℂ)))).sum) = 2
    ∧ (1 : ℝ) ≠ 2 := by
  have hsum : ((arrC5.elements.filter (fun e => e.is_active)).map (fun e =>
      (e.amplitude : ℂ) * Complex.exp (I *
        ((2 * Real.pi / (300 / arrC5.frequency) *
            (e.position_x * Real.sin (radiansR 0) +
              e.position_y * Real.cos (radiansR 0)) +
          radiansR e.phase : ℝ) : ℂ)))).sum = 2 := by
    unfold arrC5 elemW7 radiansR
    norm_num [Complex.exp_zero]
  refine ⟨?_, by rw [hsum]; exact Complex.abs_two, by norm_num⟩
  unfold calculate_beam_pattern
  rw [List.map_cons, List.map_nil, patternAt_eq, hsum]
  have hlen : ((arrC5.elements.filter (fun e => e.is_active)).length : ℝ) = 2 := by
    unfold arrC5 elemW7
    norm_num
  rw [hlen, Complex.abs_two]
  norm_num

/-- C6 (corrected): `calculate_field_at_point` sums, over the active
elements, an inverse-distance decay term `amplitude / distance` (not the
claimed `amplitude / sqrt(distance)`) times
`exp(i·(k·distance + phase_rad))`; an element at exactly zero distance is
skipped (contributes 0), which is the only guard — there is no floor clamp
on the distance. -/
theorem c6_field_formula (arr : PhasedArrayM) (x y : ℝ) :
    calculate_field_at_point arr x y
      = ((arr.elements.filter (fun e => e.is_active)).map (fun e =>
          if Real.sqrt ((x - e.position_x) ^ 2 + (y - e.position_y) ^ 2) = 0
          then 0
          else ((e.amplitude /
              Real.sqrt ((x - e.position_x) ^ 2 + (y - e.position_y) ^ 2) : ℝ) : ℂ)
            * Complex.exp (I * ((2 * Real.pi / (300 / arr.frequency) *
                Real.sqrt ((x - e.position_x) ^ 2 + (y - e.position_y) ^ 2)
                + radiansR e.phase : ℝ) : ℂ)))).sum := by
  simp only [calculate_field_at_point]
  rw [foldl_field, zero_add]
  apply map_sum_congr
  intro e
  by_cases hd : Real.sqrt ((x - e.position_x) ^ 2 + (y - e.position_y) ^ 2) = 0
  · rw [if_pos hd, if_pos hd]
  · rw [if_neg hd, if_neg hd, npComplexMk_cos_sin]

/-- C6 counterexample: at the point (4, 0), distance 4 from the single
unit-amplitude element, the code returns `1/4` (inverse-distance decay)
while the claimed `amplitude/sqrt(distance)` formula gives `1/2`. -/
theorem c6_counterexample :
    calculate_field_at_point arrC6 4 0 = (((1 : ℝ) / 4 : ℝ) : ℂ)
    ∧ specFieldSqrtDecay arrC6 4 0 = (((1 : ℝ) / 2 : ℝ) : ℂ)
    ∧ (((1 : ℝ) / 4 : ℝ) : ℂ) ≠ (((1 : ℝ) / 2 : ℝ) : ℂ) := by
  have hs : Real.sqrt (((4 : ℝ) - 0) ^ 2 + ((0 : ℝ) - 0) ^ 2) = 4 := by
    rw [show (((4 : ℝ) - 0) ^ 2 + ((0 : ℝ) - 0) ^ 2) = 4 ^ 2 by ring]
    exact Real.sqrt_sq (by norm_num)
  have hexp : Complex.exp (I * ((2 * Real.pi / (300 / (300 : ℝ)) * 4
      + radiansR 0 : ℝ) : ℂ)) = 1 := by
    have harg : (2 * Real.pi / (300 / (300 : ℝ)) * 4 + radiansR 0)
        = 8 * Real.pi := by
      unfold radiansR
      norm_num
      ring
    rw [harg]
    have h2 : I * ((8 * Real.pi : ℝ) : ℂ) = ((4 : ℤ) : ℂ) * (2 * (Real.pi : ℂ) * I) := by
      push_cast
      ring
    rw [h2, Complex.exp_int_mul_two_pi_mul_I]
  refine ⟨?_, ?_, ?_⟩
  · simp only [calculate_field_at_point]
    rw [foldl_field, zero_add]
    simp only [arrC6, elemW7, List.filter_cons, List.filter_nil, List.map_cons,
      List.map_nil, List.sum_cons, List.sum_nil, if_true]
    rw [hs]
    rw [if_neg (by norm_num : ¬(4 : ℝ) = 0), npComplexMk_cos_sin, hexp]
    norm_num
  · unfold specFieldSqrtDecay
    simp only [arrC6, elemW7, List.filter_cons, List.filter_nil, List.map_cons,
      List.map_nil, List.sum_cons, List.sum_nil, if_true]
    rw [hs, hexp]
    have hs2 : Real.sqrt (4 : ℝ) = 2 := by
      rw [show (4 : ℝ) = 2 ^ 2 by norm_num]
      exact Real.sqrt_sq (by norm_num)
    rw [hs2]
    norm_num
  · intro h
    rw [Complex.ofReal_inj] at h
    norm_num at h

/-- C7 counterexample: with the `custom` profile, steering 0 and initial
phase -180, `calculate_phases` leaves the phase at -180, which is not in
the claimed half-open interval `(-180, 180]`. -/
theorem c7_counterexample :
    ((calculate_phases arrC7 (fun _ => 0)).elements.headD elemC7).phase = -180
    ∧ ¬(-180 < ((calculate_phases arrC7 (fun _ => 0)).elements.headD elemC7).phase) := by
  have hphase : ((calculate_phases arrC7 (fun _ => 0)).elements.headD elemC7).phase
      = pyWrap (steeredPhase arrC7 0 (profilePhase arrC7 (fun _ => 0) 0 elemC7)) := rfl
  have hval : steeredPhase arrC7 0 (profilePhase arrC7 (fun _ => 0) 0 elemC7)
      = -180 := by
    unfold steeredPhase profilePhase arrC7 elemC7
    norm_num
  have hw : pyWrap (-180 : ℝ) = -180 := by
    unfold pyWrap
    rw [wrapDown, dif_neg (by norm_num), wrapUp, dif_neg (by norm_num)]
  rw [hphase, hval, hw]
  exact ⟨rfl, by norm_num⟩

/-! ### Simulator import and removal (C9, C10) -/

/-- The entry loop of `import_configuration` on a document whose prefix
deserializes and whose next entry fails keeps exactly the prefix. -/
theorem takeOks_stops (oks : List PhasedArrayM)
    (rest : List (Except Unit PhasedArrayM)) :
    takeOks (oks.map Except.ok ++ Except.error () :: rest) = (oks, false) := by
  induction oks with
  | nil => rfl
  | cons a t ih => simp [takeOks, ih]

/-- C9 (corrected): `import_configuration` on a malformed document does not
fall back to the empty/default simulator.  On invalid JSON the prior state
is left fully intact; on a document whose first `k` array entries
deserialize and whose next entry fails, the live collection is replaced by
exactly those `k` parsed arrays (the prior collection is destroyed, the
document's prefix stays installed) while `current_array_index` keeps its
prior value; `False` is returned in both cases — the import is not
atomic. -/
theorem c9_import_behavior (s : SimState) (oks : List PhasedArrayM)
    (rest : List (Except Unit PhasedArrayM)) (idx : Option ℤ) :
    import_configuration s .malformed = (s, false)
    ∧ import_configuration s (.parsed (oks.map Except.ok ++ Except.error () :: rest) idx)
      = ({ arrays := oks, current_array_index := s.current_array_index }, false) := by
  refine ⟨rfl, ?_⟩
  unfold import_configuration
  simp only [takeOks_stops]
  rfl

/-- C9 counterexample: importing the half-bad document into the one-array
simulator reports failure but leaves the simulator neither in its prior
state nor in the empty/default state: the prior array (id 0) is gone and
the document's parsed prefix (id 1) remains installed. -/
theorem c9_counterexample :
    (import_configuration simC9 docC9).1.arrays.map (fun a => a.id) = [1]
    ∧ (import_configuration simC9 docC9).2 = false
    ∧ simC9.arrays.map (fun a => a.id) = [0]
    ∧ (import_configuration simC9 docC9).1.arrays ≠ [] := by
  have h : import_configuration simC9 docC9
      = ({ arrays := [arrA1], current_array_index := 0 }, false) := rfl
  rw [h]
  refine ⟨?_, rfl, ?_, by simp⟩
  · simp [arrA1]
  · simp [simC9, arrA0]

/-- Removing by id shortens the list by exactly one when a match exists. -/
theorem popFirstWithId_length (l : List PhasedArrayM) (aid : ℤ)
    (l' : List PhasedArrayM) (h : popFirstWithId l aid = some l') :
    l'.length + 1 = l.length := by
  induction l generalizing l' with
  | nil => simp [popFirstWithId] at h
  | cons a t ih =>
    unfold popFirstWithId at h
    by_cases ha : a.id = aid
    · rw [if_pos ha] at h
      cases h
      simp
    · rw [if_neg ha] at h
      cases hp : popFirstWithId t aid with
      | none =>
        rw [hp] at h
        simp at h
      | some t' =>
        rw [hp] at h
        simp at h
        rw [← h]
        have := ih t' hp
        simp
        omega

/-- `remove_array` preserves simulator well-formedness. -/
theorem remove_array_wf (s : SimState) (aid : ℤ) (h : simWF s) :
    simWF (remove_array s aid).1 := by
  unfold remove_array
  cases hp : popFirstWithId s.arrays aid with
  | none => exact h
  | some arrays' =>
    simp only []
    constructor
    · by_cases hc : (arrays'.length : ℤ) ≤ s.current_array_index
      · rw [if_pos hc]
        exact le_max_left _ _
      · rw [if_neg hc]
        exact h.1
    · by_cases he : arrays' = []
      · left
        exact he
      · right
        have hlen : 0 < arrays'.length := List.length_pos.mpr he
        by_cases hc : (arrays'.length : ℤ) ≤ s.current_array_index
        · rw [if_pos hc]
          have h1 : (0 : ℤ) ≤ (arrays'.length : ℤ) - 1 := by
            omega
          rw [max_eq_right h1]
          show ((arrays'.length : ℕ) : ℤ) - 1 < ((arrays'.length : ℕ) : ℤ)
          omega
        · rw [if_neg hc]
          show s.current_array_index < ((arrays'.length : ℕ) : ℤ)
          omega

/-- With a nonnegative in-bounds index, `get_current_array` succeeds. -/
theorem get_current_array_ok (s : SimState)
    (h0 : 0 ≤ s.current_array_index)
    (hlt : s.current_array_index < s.arrays.length) :
    ∃ a, get_current_array s = .ok (some a) := by
  unfold get_current_array
  have hne : s.arrays.isEmpty = false := by
    cases harr : s.arrays with
    | nil =>
      rw [harr] at hlt
      simp at hlt
      omega
    | cons a t => rfl
  rw [hne]
  unfold pyListGet
  simp only [if_neg (by omega : ¬s.current_array_index < 0)]
  rw [dif_pos (And.intro h0 hlt)]
  exact ⟨_, rfl⟩

/-- C10 (corrected): for every simulator whose `current_array_index` is
nonnegative and in bounds (or whose collection is empty) — as holds for
every state not built through an unvalidated import — any sequence of
`remove_array` calls leaves the index in `[0, len)` whenever the remaining
collection is nonempty, and `get_current_array` then succeeds.  Without the
nonnegativity precondition the property fails: `import_configuration`
accepts a negative `current_array_index`, see `c10_counterexample`. -/
theorem c10_index_in_bounds (s : SimState)
    (h0 : 0 ≤ s.current_array_index)
    (hwf : s.arrays = [] ∨ s.current_array_index < s.arrays.length)
    (ids : List ℤ)
    (hne : (ids.foldl (fun st aid => (remove_array st aid).1) s).arrays ≠ []) :
    0 ≤ (ids.foldl (fun st aid => (remove_array st aid).1) s).current_array_index
    ∧ (ids.foldl (fun st aid => (remove_array st aid).1) s).current_array_index
        < (ids.foldl (fun st aid => (remove_array st aid).1) s).arrays.length
    ∧ ∃ a, get_current_array (ids.foldl (fun st aid => (remove_array st aid).1) s)
        = .ok (some a) := by
  have hwf' : simWF (ids.foldl (fun st aid => (remove_array st aid).1) s) := by
    clear hne
    induction ids generalizing s with
    | nil => exact ⟨h0, hwf⟩
    | cons aid t ih =>
      have hstep := remove_array_wf s aid ⟨h0, hwf⟩
      exact ih _ hstep.1 hstep.2
  obtain ⟨ha, hb⟩ := hwf'
  have hlt : (ids.foldl (fun st aid => (remove_array st aid).1) s).current_array_index
      < (ids.foldl (fun st aid => (remove_array st aid).1) s).arrays.length := by
    rcases hb with hb | hb
    · exact absurd hb hne
    · exact hb
  exact ⟨ha, hlt, get_current_array_ok _ ha hlt⟩

/-- Witness for `c10_index_in_bounds`: a two-array simulator, removing the
array with id 0. -/
theorem c10_witness :
    (0 : ℤ) ≤ (SimState.mk [arrA0, arrA1] 0).current_array_index
    ∧ ((SimState.mk [arrA0, arrA1] 0).arrays = []
        ∨ (SimState.mk [arrA0, arrA1] 0).current_array_index
            < (SimState.mk [arrA0, arrA1] 0).arrays.length)
    ∧ (0 ≤ ([(0 : ℤ)].foldl (fun st aid => (remove_array st aid).1)
          (SimState.mk [arrA0, arrA1] 0)).current_array_index
      ∧ ([(0 : ℤ)].foldl (fun st aid => (remove_array st aid).1)
          (SimState.mk [arrA0, arrA1] 0)).current_array_index
          < ([(0 : ℤ)].foldl (fun st aid => (remove_array st aid).1)
              (SimState.mk [arrA0, arrA1] 0)).arrays.length
      ∧ ∃ a, get_current_array ([(0 : ℤ)].foldl (fun st aid => (remove_array st aid).1)
          (SimState.mk [arrA0, arrA1] 0)) = .ok (some a)) := by
  have h0 : (0 : ℤ) ≤ (SimState.mk [arrA0, arrA1] 0).current_array_index := by
    norm_num
  have hwf : (SimState.mk [arrA0, arrA1] 0).arrays = []
      ∨ (SimState.mk [arrA0, arrA1] 0).current_array_index
          < (SimState.mk [arrA0, arrA1] 0).arrays.length := by
    right
    norm_num
  have hrem : ([(0 : ℤ)].foldl (fun st aid => (remove_array st aid).1)
      (SimState.mk [arrA0, arrA1] 0)) = SimState.mk [arrA1] 0 := by
    show (remove_array (SimState.mk [arrA0, arrA1] 0) 0).1 = SimState.mk [arrA1] 0
    unfold remove_array popFirstWithId
    norm_num [arrA0]
  have hne : ([(0 : ℤ)].foldl (fun st aid => (remove_array st aid).1)
      (SimState.mk [arrA0, arrA1] 0)).arrays ≠ [] := by
    rw [hrem]
    simp
  exact ⟨h0, hwf, c10_index_in_bounds (SimState.mk [arrA0, arrA1] 0) h0 hwf [0] hne⟩

/-- C10 counterexample: after removing id 0 from the imported simulator the
collection is nonempty (length 2) but `current_array_index` is still `-4`,
violating `0 ≤ index`, and `get_current_array` raises `IndexError`
(Python's negative indexing only reaches back `len` places). -/
theorem c10_counterexample :
    (remove_array simC10 0).1.arrays.length = 2
    ∧ (remove_array simC10 0).1.current_array_index = -4
    ∧ ¬(0 : ℤ) ≤ (remove_array simC10 0).1.current_array_index
    ∧ get_current_array (remove_array simC10 0).1 = .error () := by
  have hsim : simC10 = ⟨[arrA0, arrA1, arrA2], -4⟩ := rfl
  have hrem : (remove_array simC10 0).1 = ⟨[arrA1, arrA2], -4⟩ := by
    rw [hsim]
    unfold remove_array popFirstWithId
    norm_num [arrA0]
  rw [hrem]
  refine ⟨rfl, rfl, by norm_num, ?_⟩
  unfold get_current_array pyListGet
  norm_num

end IPB
